import Mathlib

/-!
Verification development for the datashader-examples repository.

The repository holds two example notebooks:
* `examples/race_elevation.ipynb` — census + elevation rasterization; its
  only original logic is the construction of `summary_df` from meshgrids
  and the four per-race row selections inside `update_image`.
* an unnamed graph/edge-bundling notebook — calls
  `datashader.bundling.hammer_bundle`; the bundling algorithm itself is not
  part of this repository, so it is modelled here from the specification's
  §4.1 reference design.

All geometry is embedded over `ℚ`.
-/

namespace DatashaderExamples

/-! ## Part 1: the census/elevation notebook

`summary_df` construction (race_elevation.ipynb):

```python
xs, ys = np.meshgrid(people.easting, people.northing)
summary_df = pd.DataFrame()
summary_df['x'] = xs.flatten()
summary_df['y'] = xs.flatten()
summary_df['elevation'] = elevation_agg.data.flatten()
for i, e in enumerate(cats):
    summary_df[str(e)] = people[:, :, i].data.flatten().astype(float)
```

`np.meshgrid(e, n)` returns `xs` with `xs[i][j] = e[j]` (one copy of `e`
per entry of `n`) and `ys` with `ys[i][j] = n[i]`.
-/

/-- The first result of `np.meshgrid(easting, northing)`:
row `i` is a copy of `easting`, one row per entry of `northing`. -/
def meshgridXs (easting northing : List ℚ) : List (List ℚ) :=
  northing.map (fun _ => easting)

/-- The second result of `np.meshgrid(easting, northing)`:
row `i` is `northing[i]` repeated `easting.length` times. -/
def meshgridYs (easting northing : List ℚ) : List (List ℚ) :=
  northing.map (fun yv => easting.map (fun _ => yv))

/-- The columns of `summary_df` as built by the notebook: the `'x'` and
`'y'` columns are both assigned `xs.flatten()`, the `'elevation'` column is
the flattened elevation aggregate, and one flattened column per race
category. -/
structure SummaryDF where
  xcol : List ℚ
  ycol : List ℚ
  elevation : List ℚ
  racecols : List (List ℚ)
  deriving DecidableEq, Repr

/-- The notebook's `summary_df` construction: both `'x'` and `'y'` receive
the flattened x-meshgrid `xs`. -/
def buildSummaryDF (easting northing elevFlat : List ℚ)
    (raceFlat : List (List ℚ)) : SummaryDF :=
  let xs := meshgridXs easting northing
  { xcol := xs.flatten
    ycol := xs.flatten
    elevation := elevFlat
    racecols := raceFlat }

/-! Rows of `summary_df` as consumed by `update_image`: only the four race
columns `w`, `h`, `b`, `a` matter for the row selections. -/

/-- One row of `summary_df`, restricted to the four race-count columns
used by the selections in `update_image`. -/
structure RaceRow where
  w : ℚ
  h : ℚ
  b : ℚ
  a : ℚ
  deriving DecidableEq, Repr

/-- Selection for `white_people`: `summary_df.w > summary_df.h` and
`summary_df.w > summary_df.b`. -/
def whiteSel (r : RaceRow) : Prop := r.w > r.h ∧ r.w > r.b

/-- Selection for `hispanic_people`: `summary_df.h > summary_df.w` and
`summary_df.h > summary_df.b`. -/
def hispanicSel (r : RaceRow) : Prop := r.h > r.w ∧ r.h > r.b

/-- Selection for `black_people`: `summary_df.b > summary_df.w` and
`summary_df.b > summary_df.h`. -/
def blackSel (r : RaceRow) : Prop := r.b > r.w ∧ r.b > r.h

/-- Selection for `asian_people`: `summary_df.a > summary_df.w` and
`summary_df.a > summary_df.h` — note there is no comparison with
column `b`. -/
def asianSel (r : RaceRow) : Prop := r.a > r.w ∧ r.a > r.h

instance (r : RaceRow) : Decidable (whiteSel r) := by unfold whiteSel; infer_instance
instance (r : RaceRow) : Decidable (hispanicSel r) := by unfold hispanicSel; infer_instance
instance (r : RaceRow) : Decidable (blackSel r) := by unfold blackSel; infer_instance
instance (r : RaceRow) : Decidable (asianSel r) := by unfold asianSel; infer_instance

/-! ## Part 2: the star-graph example of the bundling notebook

```python
n = 75
nodes = hv.Points(pd.DataFrame(np.stack((...)).T, columns=['x','y']))   # 75 rows, index 0..74
edges = hv.Curve(pd.DataFrame(list(zip((range(1,n+1)),[0]*n)), columns=['source','target']))
```
-/

/-- An edge of the node-link model: a (source-id, target-id) pair. -/
structure Edge where
  source : ℕ
  target : ℕ
  deriving DecidableEq, Repr

/-- The star-graph example's node count `n = 75`. -/
def starN : ℕ := 75

/-- Indices of the star-graph node dataframe: a dataframe built from
75 rows has default index `0 .. 74`. -/
def starNodeIndices : List ℕ := List.range starN

/-- Edges of the star-graph example: `zip(range(1, n+1), [0]*n)`,
i.e. sources `1 .. 75`, all targets `0`. -/
def starEdges : List Edge :=
  (List.range starN).map (fun i => { source := i + 1, target := 0 })

/-! ## Part 3: the edge-bundling procedure

Modelled from the spec: the bundling algorithm (`hammer_bundle`) lives in
the external datashader library, not in this repository; the definitions
below follow §4.1 of the specification (force-directed kernel density
bundling).  Per §9 the spec leaves the exact kernel and damping formula
open; we choose the rational kernel `bw² / (bw² + max d² εfloor)` of width
`bw` with a minimum-distance floor `εfloor` (§7), corresponding-index
attraction toward the points of other edges, and a fixed damping factor
`1/2`.
-/

/-- A 2D point with rational coordinates. -/
structure Point where
  x : ℚ
  y : ℚ
  deriving DecidableEq, Repr

/-- The origin, also used as the zero displacement. -/
def porigin : Point := { x := 0, y := 0 }

/-- Pointwise addition. -/
def padd (p q : Point) : Point := { x := p.x + q.x, y := p.y + q.y }

/-- Pointwise subtraction. -/
def psub (p q : Point) : Point := { x := p.x - q.x, y := p.y - q.y }

/-- Scalar multiplication. -/
def psmul (c : ℚ) (p : Point) : Point := { x := c * p.x, y := c * p.y }

/-- Sum of a list of points / displacements. -/
def psum : List Point → Point
  | [] => porigin
  | p :: rest => padd p (psum rest)

/-- Squared Euclidean distance between two points. -/
def sqDist (p q : Point) : ℚ := (p.x - q.x) ^ 2 + (p.y - q.y) ^ 2

/-- The minimum-distance floor (squared) guarding degenerate zero-distance
kernels (spec §7: "epsilon-floored distances"). -/
def minDistSq : ℚ := 1 / 1000000

/-- Squared distance floored from below by `minDistSq`. -/
def flooredSqDist (p q : Point) : ℚ := max (sqDist p q) minDistSq

/-- The smoothing kernel of width `bw`, evaluated on a floored squared
distance `s`: `bw² / (bw² + s)`.  Strictly positive whenever `bw ≠ 0`. -/
def kernelWeight (bw s : ℚ) : ℚ := bw ^ 2 / (bw ^ 2 + s)

/-- The damping factor scaling every displacement (spec §4.1 step 2;
the exact value is an implementation choice per §9). -/
def damping : ℚ := 1 / 2

/-- Configuration of the bundling procedure (spec §4.1 inputs). -/
structure Config where
  initial_bandwidth : ℚ
  decay : ℚ
  iterations : ℕ
  points : ℕ
  deriving DecidableEq, Repr

/-- A valid configuration: positive initial bandwidth, decay strictly
between 0 and 1, positive maximum iteration count (spec §4.1 inputs and
failure semantics). -/
def validConfig (cfg : Config) : Prop :=
  0 < cfg.initial_bandwidth ∧ 0 < cfg.decay ∧ cfg.decay < 1 ∧ 0 < cfg.iterations

instance (cfg : Config) : Decidable (validConfig cfg) := by
  unfold validConfig; infer_instance

/-- The single caller-visible failure: invalid configuration (spec §7). -/
inductive ConfigError where
  | invalidConfig
  deriving DecidableEq, Repr

/-- Position of node `i`, looked up in the node list (missing ids give the
origin). -/
def posOf (nodes : List Point) (i : ℕ) : Point := nodes.getD i porigin

/-- Straight segment from `a` to `b` resampled into `p` points: point `k`
is `a + (k/(p-1))·(b-a)` for `k = 0 .. p-1` (spec §4.1 step 1). -/
def resample (a b : Point) (p : ℕ) : List Point :=
  (List.range p).map (fun (k : ℕ) => padd a (psmul ((k : ℚ) / ((p : ℚ) - 1)) (psub b a)))

/-- The initial polylines: each edge as a straight resampled segment
between the positions of its endpoints. -/
def initialPolylines (nodes : List Point) (edges : List Edge) (p : ℕ) :
    List (List Point) :=
  edges.map (fun e => resample (posOf nodes e.source) (posOf nodes e.target) p)

/-- Pair every element of a list with its index, starting at `k`. -/
def indexedFrom : ℕ → List (List Point) → List (ℕ × List Point)
  | _, [] => []
  | k, a :: rest => (k, a) :: indexedFrom (k + 1) rest

/-- Kernel-weighted contributions pulling the point `p` (sample index `j`
of edge `i`) toward the sample points at index `j` of the *other* edges:
for every other edge `i' ≠ i` whose polyline has a point `q` at index `j`,
the pair `(kernelWeight bw (flooredSqDist p q), q)`. -/
def otherContribs (bw : ℚ) (P : List (List Point)) (i j : ℕ) (p : Point) :
    List (ℚ × Point) :=
  (indexedFrom 0 P).filterMap (fun ip =>
    if ip.1 = i then none
    else (ip.2.get? j).map (fun q => (kernelWeight bw (flooredSqDist p q), q)))

/-- Move one intermediate point: the weighted average displacement toward
the nearby points of other edges, scaled by the damping factor
(spec §4.1 step 2).  When the total weight is zero (no other edge) the
point is left in place. -/
def stepPoint (bw : ℚ) (P : List (List Point)) (i j : ℕ) (p : Point) : Point :=
  if ((otherContribs bw P i j p).map Prod.fst).sum = 0 then p
  else padd p (psmul (damping / ((otherContribs bw P i j p).map Prod.fst).sum)
    (psum ((otherContribs bw P i j p).map (fun wq => psmul wq.1 (psub wq.2 p)))))

/-- One iteration pass over the points of a single polyline: endpoints
(sample index `0` and `len-1`) stay fixed, every intermediate point is
moved by `stepPoint`. -/
def stepPoints (bw : ℚ) (P : List (List Point)) (i len : ℕ) :
    ℕ → List Point → List Point
  | _, [] => []
  | j, p :: rest =>
    (if j = 0 ∨ j + 1 = len then p else stepPoint bw P i j p) ::
      stepPoints bw P i len (j + 1) rest

/-- One iteration pass over all polylines, read from the snapshot `P`. -/
def stepPolys (bw : ℚ) (P : List (List Point)) :
    ℕ → List (List Point) → List (List Point)
  | _, [] => []
  | i, poly :: rest =>
    stepPoints bw P i poly.length 0 poly :: stepPolys bw P (i + 1) rest

/-- One bundling iteration: all displacements are computed from the
read-only snapshot `P` of the previous iteration's positions (spec §5). -/
def bundleStep (bw : ℚ) (P : List (List Point)) : List (List Point) :=
  stepPolys bw P 0 P

/-- The iteration loop: run `n` bundling iterations, shrinking the
bandwidth by the decay factor after each one (spec §4.1 steps 2-3). -/
def runIters (decay : ℚ) : ℕ → ℚ → List (List Point) → List (List Point)
  | 0, _, P => P
  | n + 1, bw, P => runIters decay n (bw * decay) (bundleStep bw P)

/-- One annealing step on the (bandwidth, positions) state, used to state
that the loop is exactly an `n`-fold iteration. -/
def annealStep (decay : ℚ) (s : ℚ × List (List Point)) : ℚ × List (List Point) :=
  (s.1 * decay, bundleStep s.1 s.2)

/-- Modelled from the spec: the bundling procedure (`hammer_bundle` of the
external datashader library, spec §4.1).  Validates the configuration
first (rejecting with a validation error before running any iteration),
then resamples every edge into a straight polyline and runs the capped
iteration loop, returning edges and positions as-is. -/
def hammer_bundle (nodes : List Point) (edges : List Edge) (cfg : Config) :
    Except ConfigError (List (List Point)) :=
  if validConfig cfg then
    .ok (runIters cfg.decay cfg.iterations cfg.initial_bandwidth
      (initialPolylines nodes edges cfg.points))
  else
    .error ConfigError.invalidConfig

/-- `true` iff the procedure returned a result rather than an error. -/
def exceptOk {ε α : Type} : Except ε α → Bool
  | .ok _ => true
  | .error _ => false

/-- The polylines of a successful bundling run, `[]` on a rejected
configuration. -/
def bundleOutput (nodes : List Point) (edges : List Edge) (cfg : Config) :
    List (List Point) :=
  match hammer_bundle nodes edges cfg with
  | .ok P => P
  | .error _ => []

/-! ### Grouping-strength measure (spec §8, third property)

The average, over spatially-close pairs of edges, of the reduction in
Euclidean distance between the edges' midpoints. -/

/-- The midpoint sample of a polyline: its middle point. -/
def polyMidpoint (pl : List Point) : Point := pl.getD (pl.length / 2) porigin

/-- Squared distance between the midpoints of polylines `i` and `j`. -/
def sqMidDist (P : List (List Point)) (i j : ℕ) : ℚ :=
  sqDist (polyMidpoint (P.getD i [])) (polyMidpoint (P.getD j []))

/-- Euclidean distance between the midpoints of polylines `i` and `j`. -/
noncomputable def midDist (P : List (List Point)) (i j : ℕ) : ℝ :=
  Real.sqrt ((sqMidDist P i j : ℚ) : ℝ)

/-- The spatially-close pairs of edges: pairs `i < j` whose initial
midpoints are within distance `t` of each other. -/
def closePairs (P : List (List Point)) (t : ℚ) : List (ℕ × ℕ) :=
  ((List.range P.length).flatMap (fun i =>
      (List.range P.length).map (fun j => (i, j)))).filter
    (fun ij => decide (ij.1 < ij.2 ∧ sqMidDist P ij.1 ij.2 ≤ t ^ 2))

/-- Average pairwise midpoint-distance reduction from `init` to `fin`
over the pairs of edges spatially close (within `t`) in `init`. -/
noncomputable def avgCloseReduction (init fin : List (List Point)) (t : ℚ) : ℝ :=
  ((closePairs init t).map
      (fun ij => midDist init ij.1 ij.2 - midDist fin ij.1 ij.2)).sum /
    ((closePairs init t).length : ℝ)

/-! ### Concrete inputs used by counterexamples and witnesses -/

/-- Three vertical unit segments: two close together (x = 0 and x = 1) and
one far away (x = 100). -/
def exNodes : List Point :=
  [⟨0, -1⟩, ⟨0, 1⟩, ⟨1, -1⟩, ⟨1, 1⟩, ⟨100, -1⟩, ⟨100, 1⟩]

/-- Three parallel edges over `exNodes`. -/
def exEdges : List Edge := [⟨0, 1⟩, ⟨2, 3⟩, ⟨4, 5⟩]

/-- The initial polylines of `exNodes`/`exEdges` with three sample points
per edge, written out explicitly. -/
def exInitial : List (List Point) :=
  [[⟨0, -1⟩, ⟨0, 0⟩, ⟨0, 1⟩],
   [⟨1, -1⟩, ⟨1, 0⟩, ⟨1, 1⟩],
   [⟨100, -1⟩, ⟨100, 0⟩, ⟨100, 1⟩]]

/-- A configuration with the given initial bandwidth, decay `1/2`, one
iteration, and three sample points per edge. -/
def cfgWithBW (bw : ℚ) : Config :=
  { initial_bandwidth := bw, decay := 1 / 2, iterations := 1, points := 3 }

/-- A configuration whose iteration cap is `0` (all other fields valid). -/
def cfgIterZero : Config :=
  { initial_bandwidth := 1, decay := 1 / 2, iterations := 0, points := 3 }

/-- Two distinct nodes for small witness inputs. -/
def wNodes : List Point := [⟨0, 0⟩, ⟨4, 2⟩]

/-- Two coincident edges over `wNodes`: the same (source, target) pair
twice, so both resampled polylines are identical. -/
def wEdgesCoincident : List Edge := [⟨0, 1⟩, ⟨0, 1⟩]

/-- A single edge over `wNodes`. -/
def wEdgesSingle : List Edge := [⟨0, 1⟩]

/-- A small valid configuration for witnesses: bandwidth 1, decay `1/2`,
two iterations, four sample points per edge. -/
def wCfg : Config :=
  { initial_bandwidth := 1, decay := 1 / 2, iterations := 2, points := 4 }

end DatashaderExamples

namespace DatashaderExamples

/-! ## Helper lemmas -/

theorem padd_porigin (p : Point) : padd p porigin = p := by
  simp [padd, porigin]

theorem psub_self (p : Point) : psub p p = porigin := by
  simp [psub, porigin]

theorem psmul_porigin (c : ℚ) : psmul c porigin = porigin := by
  simp [psmul, porigin]

theorem psmul_psmul (c d : ℚ) (p : Point) :
    psmul c (psmul d p) = psmul (c * d) p := by
  simp [psmul, mul_assoc]

theorem psum_eq_porigin {l : List Point} (h : ∀ x ∈ l, x = porigin) :
    psum l = porigin := by
  induction l with
  | nil => rfl
  | cons a rest ih =>
    have ha : a = porigin := h a (by simp)
    have hr : psum rest = porigin := ih (fun x hx => h x (by simp [hx]))
    simp [psum, ha, hr, padd_porigin]

theorem mem_indexedFrom {k : ℕ} {a : List Point} {n : ℕ} {l : List (List Point)}
    (h : (k, a) ∈ indexedFrom n l) : a ∈ l := by
  induction l generalizing n with
  | nil => simp [indexedFrom] at h
  | cons b rest ih =>
    simp only [indexedFrom, List.mem_cons] at h
    rcases h with h | h
    · simp [Prod.ext_iff] at h
      simp [h.2]
    · exact List.mem_cons_of_mem _ (ih h)

theorem otherContribs_mem {bw : ℚ} {P : List (List Point)} {i j : ℕ} {p : Point}
    {w : ℚ} {q : Point} (h : (w, q) ∈ otherContribs bw P i j p) :
    ∃ pl ∈ P, pl.get? j = some q := by
  unfold otherContribs at h
  rw [List.mem_filterMap] at h
  obtain ⟨⟨k, pl⟩, hmem, hf⟩ := h
  refine ⟨pl, mem_indexedFrom hmem, ?_⟩
  dsimp only at hf
  by_cases hk : k = i
  · rw [if_pos hk] at hf
    exact absurd hf (by simp)
  · rw [if_neg hk] at hf
    rcases ho : pl.get? j with _ | q'
    · rw [ho] at hf
      exact absurd hf (by simp)
    · rw [ho, Option.map_some'] at hf
      have hq : q' = q := congrArg Prod.snd (Option.some.inj hf)
      rw [hq]

/-- If every polyline of the snapshot equals `c` and `p` is the point of
`c` at index `j`, then the averaging step leaves `p` in place: every
contribution pulls toward `p` itself. -/
theorem stepPoint_id_of_all_eq {P : List (List Point)} {c : List Point}
    (hall : ∀ pl ∈ P, pl = c) {j : ℕ} {p : Point} (hj : c.get? j = some p)
    (bw : ℚ) (i : ℕ) : stepPoint bw P i j p = p := by
  have hq : ∀ wq ∈ otherContribs bw P i j p,
      psmul wq.1 (psub wq.2 p) = porigin := by
    rintro ⟨w, q⟩ hm
    obtain ⟨pl, hpl, hget⟩ := otherContribs_mem hm
    rw [hall pl hpl, hj] at hget
    have : q = p := by injection hget with h; exact h.symm
    simp [this, psub_self, psmul_porigin]
  unfold stepPoint
  by_cases ht : ((otherContribs bw P i j p).map Prod.fst).sum = 0
  · simp [ht]
  · have hsum : psum ((otherContribs bw P i j p).map
        (fun wq => psmul wq.1 (psub wq.2 p))) = porigin := by
      refine psum_eq_porigin ?_
      intro x hx
      rw [List.mem_map] at hx
      obtain ⟨wq, hwq, hxeq⟩ := hx
      rw [← hxeq]
      exact hq wq hwq
    simp [ht, hsum, psmul_porigin, padd_porigin]

theorem stepPoints_id_of_all_eq {P : List (List Point)} {c : List Point}
    (hall : ∀ pl ∈ P, pl = c) (bw : ℚ) (i : ℕ) :
    ∀ (j : ℕ) (l : List Point), l = c.drop j →
      stepPoints bw P i c.length j l = l := by
  intro j l
  induction l generalizing j with
  | nil => intro _; rfl
  | cons p rest ih =>
    intro hdrop
    have hget : c.get? j = some p := by
      have h0 : (c.drop j).get? 0 = some p := by rw [← hdrop]; rfl
      rw [List.get?_drop] at h0
      simpa using h0
    have hrest : rest = c.drop (j + 1) := by
      have h2 := List.drop_drop 1 j c
      rw [← hdrop] at h2
      simpa using h2
    unfold stepPoints
    by_cases hend : j = 0 ∨ j + 1 = c.length
    · simp only [hend, if_true]
      rw [ih (j + 1) hrest]
    · simp only [hend, if_false]
      rw [stepPoint_id_of_all_eq hall hget bw i, ih (j + 1) hrest]

theorem stepPolys_id_of_all_eq {P : List (List Point)} {c : List Point}
    (hall : ∀ pl ∈ P, pl = c) (bw : ℚ) :
    ∀ (i : ℕ) (Q : List (List Point)), (∀ pl ∈ Q, pl = c) →
      stepPolys bw P i Q = Q := by
  intro i Q
  induction Q generalizing i with
  | nil => intro _; rfl
  | cons poly rest ih =>
    intro hQ
    have hpoly : poly = c := hQ poly (by simp)
    unfold stepPolys
    rw [hpoly, stepPoints_id_of_all_eq hall bw i 0 c (by simp),
      ih (i + 1) (fun pl hpl => hQ pl (by simp [hpl]))]

/-- A snapshot whose polylines all coincide is a fixed point of one
bundling iteration. -/
theorem bundleStep_id_of_all_eq {P : List (List Point)}
    (hall : ∀ p q, p ∈ P → q ∈ P → p = q) (bw : ℚ) :
    bundleStep bw P = P := by
  cases P with
  | nil => rfl
  | cons c rest =>
    have hc : ∀ pl ∈ c :: rest, pl = c := by
      intro pl hpl
      exact hall pl c hpl (by simp)
    exact stepPolys_id_of_all_eq hc bw 0 (c :: rest) hc

theorem runIters_id_of_all_eq {P : List (List Point)}
    (hall : ∀ p q, p ∈ P → q ∈ P → p = q) (decay : ℚ) :
    ∀ (n : ℕ) (bw : ℚ), runIters decay n bw P = P := by
  intro n
  induction n with
  | zero => intro bw; rfl
  | succ n ih =>
    intro bw
    unfold runIters
    rw [bundleStep_id_of_all_eq hall bw, ih (bw * decay)]

theorem bundleStep_nil (bw : ℚ) : bundleStep bw [] = [] := rfl

theorem runIters_nil (decay : ℚ) :
    ∀ (n : ℕ) (bw : ℚ), runIters decay n bw [] = [] := by
  intro n
  induction n with
  | zero => intro bw; rfl
  | succ n ih =>
    intro bw
    unfold runIters
    rw [bundleStep_nil, ih (bw * decay)]

/-! ### Length preservation -/

theorem stepPoints_length (bw : ℚ) (P : List (List Point)) (i len : ℕ) :
    ∀ (j : ℕ) (l : List Point), (stepPoints bw P i len j l).length = l.length := by
  intro j l
  induction l generalizing j with
  | nil => rfl
  | cons p rest ih => simp [stepPoints, ih]

theorem stepPolys_map_length (bw : ℚ) (P : List (List Point)) :
    ∀ (i : ℕ) (Q : List (List Point)),
      (stepPolys bw P i Q).map List.length = Q.map List.length := by
  intro i Q
  induction Q generalizing i with
  | nil => rfl
  | cons poly rest ih =>
    simp [stepPolys, stepPoints_length, ih]

theorem bundleStep_map_length (bw : ℚ) (P : List (List Point)) :
    (bundleStep bw P).map List.length = P.map List.length :=
  stepPolys_map_length bw P 0 P

theorem runIters_map_length (decay : ℚ) :
    ∀ (n : ℕ) (bw : ℚ) (P : List (List Point)),
      (runIters decay n bw P).map List.length = P.map List.length := by
  intro n
  induction n with
  | zero => intro bw P; rfl
  | succ n ih =>
    intro bw P
    unfold runIters
    rw [ih (bw * decay), bundleStep_map_length]

theorem resample_length (a b : Point) (p : ℕ) : (resample a b p).length = p := by
  unfold resample
  rw [List.length_map, List.length_range]

theorem sqDist_nonneg (p q : Point) : 0 ≤ sqDist p q :=
  add_nonneg (sq_nonneg _) (sq_nonneg _)

theorem kernelWeight_pos {bw : ℚ} (hbw : 0 < bw) (p q : Point) :
    0 < kernelWeight bw (flooredSqDist p q) := by
  unfold kernelWeight flooredSqDist
  apply div_pos (pow_pos hbw 2)
  apply add_pos (pow_pos hbw 2)
  exact lt_of_lt_of_le (by norm_num [minDistSq]) (le_max_right _ _)

theorem initialPolylines_length (nodes : List Point) (edges : List Edge)
    (p : ℕ) : (initialPolylines nodes edges p).length = edges.length := by
  unfold initialPolylines
  rw [List.length_map]

theorem bundleStep_length (bw : ℚ) (P : List (List Point)) :
    (bundleStep bw P).length = P.length := by
  have h := congrArg List.length (bundleStep_map_length bw P)
  simpa using h

/-! ### Contribution lists for one- and two-edge snapshots -/

theorem otherContribs_single (bw : ℚ) (A : List Point) (j : ℕ) (p : Point) :
    otherContribs bw [A] 0 j p = [] := by
  unfold otherContribs
  simp [indexedFrom, List.filterMap_cons]

theorem otherContribs_pair_left_none (bw : ℚ) (A B : List Point) (j : ℕ)
    (p : Point) (ho : B.get? j = none) :
    otherContribs bw [A, B] 0 j p = [] := by
  unfold otherContribs
  rw [List.get?_eq_getElem?] at ho
  simp [indexedFrom, List.filterMap_cons, ho]

theorem otherContribs_pair_left_some (bw : ℚ) (A B : List Point) (j : ℕ)
    (p q : Point) (ho : B.get? j = some q) :
    otherContribs bw [A, B] 0 j p =
      [(kernelWeight bw (flooredSqDist p q), q)] := by
  unfold otherContribs
  rw [List.get?_eq_getElem?] at ho
  simp [indexedFrom, List.filterMap_cons, ho]

theorem otherContribs_pair_right_none (bw : ℚ) (A B : List Point) (j : ℕ)
    (p : Point) (ho : A.get? j = none) :
    otherContribs bw [A, B] 1 j p = [] := by
  unfold otherContribs
  rw [List.get?_eq_getElem?] at ho
  simp [indexedFrom, List.filterMap_cons, ho]

theorem otherContribs_pair_right_some (bw : ℚ) (A B : List Point) (j : ℕ)
    (p q : Point) (ho : A.get? j = some q) :
    otherContribs bw [A, B] 1 j p =
      [(kernelWeight bw (flooredSqDist p q), q)] := by
  unfold otherContribs
  rw [List.get?_eq_getElem?] at ho
  simp [indexedFrom, List.filterMap_cons, ho]

theorem stepPoint_no_contrib {bw : ℚ} {P : List (List Point)} {i j : ℕ}
    {p : Point} (hc : otherContribs bw P i j p = []) :
    stepPoint bw P i j p = p := by
  unfold stepPoint
  rw [hc]
  simp

/-- With exactly one contribution the normalising total cancels the
kernel weight, so the moved point does not depend on the bandwidth. -/
theorem stepPoint_one_contrib {bw : ℚ} (hbw : 0 < bw)
    {P : List (List Point)} {i j : ℕ} {p q : Point}
    (hc : otherContribs bw P i j p =
      [(kernelWeight bw (flooredSqDist p q), q)]) :
    stepPoint bw P i j p = padd p (psmul damping (psub q p)) := by
  have hw : (0 : ℚ) < kernelWeight bw (flooredSqDist p q) :=
    kernelWeight_pos hbw p q
  unfold stepPoint
  rw [hc]
  simp only [List.map_cons, List.map_nil, List.sum_cons, List.sum_nil, add_zero]
  rw [if_neg (ne_of_gt hw)]
  simp only [psum]
  rw [padd_porigin, psmul_psmul, div_mul_cancel₀ damping (ne_of_gt hw)]

theorem stepPoint_single_edge (bw : ℚ) (A : List Point) (j : ℕ) (p : Point) :
    stepPoint bw [A] 0 j p = p :=
  stepPoint_no_contrib (otherContribs_single bw A j p)

theorem stepPoints_single_edge (bw : ℚ) (A : List Point) (len : ℕ) :
    ∀ (j : ℕ) (l : List Point), stepPoints bw [A] 0 len j l = l := by
  intro j l
  induction l generalizing j with
  | nil => rfl
  | cons p rest ih =>
    unfold stepPoints
    by_cases hend : j = 0 ∨ j + 1 = len
    · rw [if_pos hend, ih (j + 1)]
    · rw [if_neg hend, stepPoint_single_edge, ih (j + 1)]

theorem stepPoints_pair_left_bw {bw1 bw2 : ℚ} (h1 : 0 < bw1) (h2 : 0 < bw2)
    (A B : List Point) (len : ℕ) :
    ∀ (j : ℕ) (l : List Point),
      stepPoints bw1 [A, B] 0 len j l = stepPoints bw2 [A, B] 0 len j l := by
  intro j l
  induction l generalizing j with
  | nil => rfl
  | cons p rest ih =>
    unfold stepPoints
    rw [ih (j + 1)]
    congr 1
    by_cases hend : j = 0 ∨ j + 1 = len
    · rw [if_pos hend, if_pos hend]
    · rw [if_neg hend, if_neg hend]
      rcases ho : B.get? j with _ | q
      · rw [stepPoint_no_contrib (otherContribs_pair_left_none bw1 A B j p ho),
          stepPoint_no_contrib (otherContribs_pair_left_none bw2 A B j p ho)]
      · rw [stepPoint_one_contrib h1 (otherContribs_pair_left_some bw1 A B j p q ho),
          stepPoint_one_contrib h2 (otherContribs_pair_left_some bw2 A B j p q ho)]

theorem stepPoints_pair_right_bw {bw1 bw2 : ℚ} (h1 : 0 < bw1) (h2 : 0 < bw2)
    (A B : List Point) (len : ℕ) :
    ∀ (j : ℕ) (l : List Point),
      stepPoints bw1 [A, B] 1 len j l = stepPoints bw2 [A, B] 1 len j l := by
  intro j l
  induction l generalizing j with
  | nil => rfl
  | cons p rest ih =>
    unfold stepPoints
    rw [ih (j + 1)]
    congr 1
    by_cases hend : j = 0 ∨ j + 1 = len
    · rw [if_pos hend, if_pos hend]
    · rw [if_neg hend, if_neg hend]
      rcases ho : A.get? j with _ | q
      · rw [stepPoint_no_contrib (otherContribs_pair_right_none bw1 A B j p ho),
          stepPoint_no_contrib (otherContribs_pair_right_none bw2 A B j p ho)]
      · rw [stepPoint_one_contrib h1 (otherContribs_pair_right_some bw1 A B j p q ho),
          stepPoint_one_contrib h2 (otherContribs_pair_right_some bw2 A B j p q ho)]

/-- On a snapshot of at most two polylines, one bundling iteration does
not depend on the bandwidth: each point has at most one attractor, and the
weighted average normalises its single weight away. -/
theorem bundleStep_le_two_bw {bw1 bw2 : ℚ} (h1 : 0 < bw1) (h2 : 0 < bw2) :
    ∀ (P : List (List Point)), P.length ≤ 2 →
      bundleStep bw1 P = bundleStep bw2 P := by
  intro P hP
  match P, hP with
  | [], _ => rfl
  | [A], _ =>
    show stepPolys bw1 [A] 0 [A] = stepPolys bw2 [A] 0 [A]
    simp only [stepPolys]
    rw [stepPoints_single_edge, stepPoints_single_edge]
  | [A, B], _ =>
    show stepPolys bw1 [A, B] 0 [A, B] = stepPolys bw2 [A, B] 0 [A, B]
    simp only [stepPolys]
    rw [stepPoints_pair_left_bw h1 h2, stepPoints_pair_right_bw h1 h2]

theorem runIters_le_two_bw {decay : ℚ} (hd : 0 < decay) :
    ∀ (n : ℕ) (bw1 bw2 : ℚ), 0 < bw1 → 0 < bw2 →
      ∀ (P : List (List Point)), P.length ≤ 2 →
        runIters decay n bw1 P = runIters decay n bw2 P := by
  intro n
  induction n with
  | zero => intros; rfl
  | succ n ih =>
    intro bw1 bw2 h1 h2 P hP
    unfold runIters
    rw [bundleStep_le_two_bw h1 h2 P hP]
    exact ih (bw1 * decay) (bw2 * decay) (mul_pos h1 hd) (mul_pos h2 hd)
      (bundleStep bw2 P) (by rw [bundleStep_length]; exact hP)

theorem sqMidDist_nonneg (P : List (List Point)) (i j : ℕ) :
    0 ≤ sqMidDist P i j := sqDist_nonneg _ _

/-! ### Concrete evaluation of the three-parallel-edge example -/

theorem ex_initial_eval : initialPolylines exNodes exEdges 3 = exInitial := by
  norm_num [initialPolylines, exNodes, exEdges, exInitial, resample, posOf, padd,
    psub, psmul, List.range_succ, List.getD, List.get?]

theorem ex_run_eval (bw : ℚ) : runIters (1 / 2) 1 bw exInitial =
    [[⟨0, -1⟩, stepPoint bw exInitial 0 1 ⟨0, 0⟩, ⟨0, 1⟩],
     [⟨1, -1⟩, stepPoint bw exInitial 1 1 ⟨1, 0⟩, ⟨1, 1⟩],
     [⟨100, -1⟩, stepPoint bw exInitial 2 1 ⟨100, 0⟩, ⟨100, 1⟩]] := by
  show stepPolys bw exInitial 0 exInitial = _
  simp only [exInitial, stepPolys, stepPoints, List.length_cons, List.length_nil]
  norm_num

theorem ex_sqMid_eval (bw : ℚ) : sqMidDist (runIters (1 / 2) 1 bw exInitial) 0 1 =
    sqDist (stepPoint bw exInitial 0 1 ⟨0, 0⟩) (stepPoint bw exInitial 1 1 ⟨1, 0⟩) := by
  rw [ex_run_eval bw]
  simp [sqMidDist, polyMidpoint, List.getD]

theorem ex_step_bw1_mid0 : stepPoint 1 exInitial 0 1 ⟨0, 0⟩ = ⟨10201 / 20006, 0⟩ := by
  norm_num [stepPoint, otherContribs, indexedFrom, List.filterMap_cons, List.get?,
    kernelWeight, flooredSqDist, sqDist, minDistSq, damping, psum, psmul, psub, padd,
    porigin, max_def, exInitial]

theorem ex_step_bw1_mid1 : stepPoint 1 exInitial 1 1 ⟨1, 0⟩ = ⟨2501 / 4902, 0⟩ := by
  norm_num [stepPoint, otherContribs, indexedFrom, List.filterMap_cons, List.get?,
    kernelWeight, flooredSqDist, sqDist, minDistSq, damping, psum, psmul, psub, padd,
    porigin, max_def, exInitial]

theorem ex_step_bw100_mid0 : stepPoint 100 exInitial 0 1 ⟨0, 0⟩ = ⟨510050 / 30001, 0⟩ := by
  norm_num [stepPoint, otherContribs, indexedFrom, List.filterMap_cons, List.get?,
    kernelWeight, flooredSqDist, sqDist, minDistSq, damping, psum, psmul, psub, padd,
    porigin, max_def, exInitial]

theorem ex_step_bw100_mid1 : stepPoint 100 exInitial 1 1 ⟨1, 0⟩ = ⟨514951 / 29802, 0⟩ := by
  norm_num [stepPoint, otherContribs, indexedFrom, List.filterMap_cons, List.get?,
    kernelWeight, flooredSqDist, sqDist, minDistSq, damping, psum, psmul, psub, padd,
    porigin, max_def, exInitial]

theorem ex_closePairs : closePairs exInitial 2 = [(0, 1)] := by
  have hmid01 : sqMidDist exInitial 0 1 = 1 := by
    norm_num [sqMidDist, polyMidpoint, exInitial, List.getD, List.get?, sqDist]
  have hmid02 : sqMidDist exInitial 0 2 = 10000 := by
    norm_num [sqMidDist, polyMidpoint, exInitial, List.getD, List.get?, sqDist]
  have hmid12 : sqMidDist exInitial 1 2 = 9801 := by
    norm_num [sqMidDist, polyMidpoint, exInitial, List.getD, List.get?, sqDist]
  unfold closePairs
  have hlen : exInitial.length = 3 := rfl
  rw [hlen]
  have hflat : (List.range 3).flatMap (fun i => (List.range 3).map (fun j => (i, j))) =
      [(0, 0), (0, 1), (0, 2), (1, 0), (1, 1), (1, 2), (2, 0), (2, 1), (2, 2)] := by
    decide
  rw [hflat]
  simp only [List.filter_cons, List.filter_nil,
    decide_eq_true (show (0 : ℕ) < 1 ∧ sqMidDist exInitial 0 1 ≤ 2 ^ 2 from
      ⟨by norm_num, by rw [hmid01]; norm_num⟩),
    decide_eq_false (show ¬((0 : ℕ) < 0 ∧ sqMidDist exInitial 0 0 ≤ 2 ^ 2) from
      fun h => by exact absurd h.1 (by norm_num)),
    decide_eq_false (show ¬((0 : ℕ) < 2 ∧ sqMidDist exInitial 0 2 ≤ 2 ^ 2) from
      fun h => by rw [hmid02] at h; exact absurd h.2 (by norm_num)),
    decide_eq_false (show ¬((1 : ℕ) < 0 ∧ sqMidDist exInitial 1 0 ≤ 2 ^ 2) from
      fun h => by exact absurd h.1 (by norm_num)),
    decide_eq_false (show ¬((1 : ℕ) < 1 ∧ sqMidDist exInitial 1 1 ≤ 2 ^ 2) from
      fun h => by exact absurd h.1 (by norm_num)),
    decide_eq_false (show ¬((1 : ℕ) < 2 ∧ sqMidDist exInitial 1 2 ≤ 2 ^ 2) from
      fun h => by rw [hmid12] at h; exact absurd h.2 (by norm_num)),
    decide_eq_false (show ¬((2 : ℕ) < 0 ∧ sqMidDist exInitial 2 0 ≤ 2 ^ 2) from
      fun h => by exact absurd h.1 (by norm_num)),
    decide_eq_false (show ¬((2 : ℕ) < 1 ∧ sqMidDist exInitial 2 1 ≤ 2 ^ 2) from
      fun h => by exact absurd h.1 (by norm_num)),
    decide_eq_false (show ¬((2 : ℕ) < 2 ∧ sqMidDist exInitial 2 2 ≤ 2 ^ 2) from
      fun h => by exact absurd h.1 (by norm_num))]
  simp

/-! ### The loop as an `n`-fold iteration -/

theorem runIters_eq_iterate (decay : ℚ) :
    ∀ (n : ℕ) (bw : ℚ) (P : List (List Point)),
      runIters decay n bw P = ((annealStep decay)^[n] (bw, P)).2 := by
  intro n
  induction n with
  | zero => intro bw P; rfl
  | succ n ih =>
    intro bw P
    rw [Function.iterate_succ_apply]
    exact ih (bw * decay) (bundleStep bw P)

/-- **C1.** In the census/elevation notebook's reshaping step, the `'y'`
column of `summary_df` equals the `'x'` column (both are assigned the
flattened x-meshgrid), so for every row `y = x`; and no column of
`summary_df` depends on the northing values: replacing `northing` by a
list of zeros of the same length leaves the whole dataframe unchanged,
so the northing meshgrid values never appear in any column. -/
theorem C1_summary_df_y_equals_x (easting northing elevFlat : List ℚ)
    (raceFlat : List (List ℚ)) :
    (buildSummaryDF easting northing elevFlat raceFlat).ycol =
      (buildSummaryDF easting northing elevFlat raceFlat).xcol ∧
    buildSummaryDF easting northing elevFlat raceFlat =
      buildSummaryDF easting (List.replicate northing.length 0) elevFlat raceFlat := by
  refine ⟨rfl, ?_⟩
  simp [buildSummaryDF, meshgridXs, List.map_const]

/-- **C2.** The per-race selections inside `update_image` are not pairwise
disjoint: there is a row with `a > w`, `a > h`, `b > w`, `b > h` that
satisfies both the `black_people` selection and the `asian_people`
selection (the latter never compares against column `b`), so that row is
aggregated into both images before `tf.stack` composites them. -/
theorem C2_black_asian_selections_overlap :
    ∃ r : RaceRow, (r.a > r.w ∧ r.a > r.h ∧ r.b > r.w ∧ r.b > r.h) ∧
      blackSel r ∧ asianSel r :=
  ⟨{ w := 0, h := 0, b := 1, a := 2 }, by decide⟩

/-- **C10.** In the star-graph example with `n = 75`, the node dataframe
has indices `0 .. 74` while the edge sources are `1 .. 75`: exactly one
edge (the one with source id 75) references an id present in no node row,
so the edge set is not closed over the node set. -/
theorem C10_star_graph_edge_not_closed :
    (starEdges.filter (fun e => !(starNodeIndices.contains e.source))).map
        (fun e => e.source) = [75] ∧
    starEdges.length = 75 ∧ starNodeIndices = List.range 75 := by
  refine ⟨?_, by decide, rfl⟩
  decide

/-- **C3.** For zero edges the bundling procedure returns an empty result
and raises no error, for every node set (in particular disconnected node
sets) and every valid configuration. -/
theorem C3_zero_edges_empty_result (nodes : List Point) (cfg : Config)
    (hv : validConfig cfg) : hammer_bundle nodes [] cfg = .ok [] := by
  unfold hammer_bundle
  rw [if_pos hv]
  have hinit : initialPolylines nodes [] cfg.points = [] := rfl
  rw [hinit, runIters_nil]

/-- Witness for C3 at a concrete node set and configuration. -/
theorem C3_zero_edges_empty_result_witness :
    validConfig wCfg ∧ hammer_bundle wNodes [] wCfg = .ok [] :=
  ⟨by norm_num [validConfig, wCfg],
    C3_zero_edges_empty_result wNodes wCfg (by norm_num [validConfig, wCfg])⟩

/-- **C4 counterexample.** With the iteration cap set to `0` the procedure
does not return the initial polylines: a cap of `0` is a non-positive
iteration count, so the configuration is rejected with a validation error
before any resampling happens. -/
theorem C4_counterexample_iter_zero_rejected :
    hammer_bundle exNodes exEdges cfgIterZero = .error ConfigError.invalidConfig ∧
    hammer_bundle exNodes exEdges cfgIterZero ≠
      .ok (initialPolylines exNodes exEdges cfgIterZero.points) := by
  have hnv : ¬ validConfig cfgIterZero := by
    intro hv
    exact absurd hv.2.2.2 (by norm_num [cfgIterZero])
  have herr : hammer_bundle exNodes exEdges cfgIterZero =
      .error ConfigError.invalidConfig := by
    unfold hammer_bundle
    rw [if_neg hnv]
  refine ⟨herr, ?_⟩
  rw [herr]
  exact fun h => Except.noConfusion h

/-- **C4 (amended).** A configuration whose iteration cap is `0` is
rejected as invalid rather than run; the iteration loop itself, run zero
times, returns exactly the initial straight-line resampled polylines with
no point displaced. -/
theorem C4_amended_iter_zero :
    (∀ (nodes : List Point) (edges : List Edge) (cfg : Config),
        cfg.iterations = 0 →
        hammer_bundle nodes edges cfg = .error ConfigError.invalidConfig) ∧
    (∀ (nodes : List Point) (edges : List Edge) (pts : ℕ) (decay bw : ℚ),
        runIters decay 0 bw (initialPolylines nodes edges pts) =
          initialPolylines nodes edges pts) := by
  constructor
  · intro nodes edges cfg h0
    have hnv : ¬ validConfig cfg := by
      intro hv
      have hiter := hv.2.2.2
      rw [h0] at hiter
      exact lt_irrefl 0 hiter
    unfold hammer_bundle
    rw [if_neg hnv]
  · intro nodes edges pts decay bw
    rfl

/-- Witness for the amended C4 at a concrete input. -/
theorem C4_amended_iter_zero_witness :
    hammer_bundle exNodes exEdges cfgIterZero = .error ConfigError.invalidConfig ∧
    runIters (1 / 2 : ℚ) 0 1 (initialPolylines exNodes exEdges 3) =
      initialPolylines exNodes exEdges 3 :=
  ⟨C4_amended_iter_zero.1 exNodes exEdges cfgIterZero rfl,
   C4_amended_iter_zero.2 exNodes exEdges 3 (1 / 2) 1⟩

/-- **C5.** The bundling procedure fails iff the configuration is invalid
(non-positive initial bandwidth, decay outside `(0,1)`, or non-positive
iteration cap): it returns a result exactly on valid configurations, and
the kernel's distance argument is floored by the strictly positive
`minDistSq`, so no degenerate zero-distance kernel occurs at runtime. -/
theorem C5_fails_iff_invalid_config :
    (∀ (nodes : List Point) (edges : List Edge) (cfg : Config),
      exceptOk (hammer_bundle nodes edges cfg) = true ↔ validConfig cfg) ∧
    (0 < minDistSq ∧ ∀ p q : Point, 0 < flooredSqDist p q) := by
  refine ⟨?_, by norm_num [minDistSq], ?_⟩
  · intro nodes edges cfg
    unfold hammer_bundle
    by_cases hv : validConfig cfg
    · simp [hv, exceptOk]
    · simp [hv, exceptOk]
  · intro p q
    unfold flooredSqDist
    exact lt_of_lt_of_le (by norm_num [minDistSq]) (le_max_right _ _)

/-- **C9.** On a valid configuration the procedure performs exactly the
configured number of bundling iterations — the `iterations`-fold
application of the annealing step — then terminates and returns the
resulting positions as-is inside `.ok`: reaching the iteration cap is
never reported as an error. -/
theorem C9_terminates_at_iteration_cap (nodes : List Point)
    (edges : List Edge) (cfg : Config) (hv : validConfig cfg) :
    hammer_bundle nodes edges cfg =
      .ok (((annealStep cfg.decay)^[cfg.iterations]
        (cfg.initial_bandwidth, initialPolylines nodes edges cfg.points)).2) := by
  unfold hammer_bundle
  rw [if_pos hv, runIters_eq_iterate]

/-- Witness for C9 at a concrete input and configuration. -/
theorem C9_terminates_at_iteration_cap_witness :
    validConfig wCfg ∧
    hammer_bundle wNodes wEdgesSingle wCfg =
      .ok (((annealStep wCfg.decay)^[wCfg.iterations]
        (wCfg.initial_bandwidth, initialPolylines wNodes wEdgesSingle wCfg.points)).2) :=
  ⟨by norm_num [validConfig, wCfg],
    C9_terminates_at_iteration_cap wNodes wEdgesSingle wCfg
      (by norm_num [validConfig, wCfg])⟩

/-- **C6.** Every polyline returned by a successful bundling run has
exactly the configured resample point count of points, for every edge
regardless of its geometric length. -/
theorem C6_output_point_count (nodes : List Point) (edges : List Edge)
    (cfg : Config) (out : List (List Point)) (hv : validConfig cfg)
    (hout : hammer_bundle nodes edges cfg = .ok out) :
    ∀ pl ∈ out, pl.length = cfg.points := by
  unfold hammer_bundle at hout
  rw [if_pos hv] at hout
  have hout' : out = runIters cfg.decay cfg.iterations cfg.initial_bandwidth
      (initialPolylines nodes edges cfg.points) := (Except.ok.inj hout).symm
  intro pl hpl
  have hmap : out.map List.length =
      (initialPolylines nodes edges cfg.points).map List.length := by
    rw [hout', runIters_map_length]
  have hmem : pl.length ∈ out.map List.length := List.mem_map_of_mem _ hpl
  rw [hmap, List.mem_map] at hmem
  obtain ⟨pl0, hpl0, hlen⟩ := hmem
  unfold initialPolylines at hpl0
  rw [List.mem_map] at hpl0
  obtain ⟨e, _, hre⟩ := hpl0
  rw [← hlen, ← hre, resample_length]

/-- Witness for C6: the single-edge run, whose output polylines all have
the configured four points. -/
theorem C6_output_point_count_witness :
    validConfig wCfg ∧
    ∀ pl ∈ bundleOutput wNodes wEdgesSingle wCfg, pl.length = wCfg.points := by
  have hv : validConfig wCfg := by norm_num [validConfig, wCfg]
  have hok : hammer_bundle wNodes wEdgesSingle wCfg =
      .ok (bundleOutput wNodes wEdgesSingle wCfg) := by
    unfold bundleOutput hammer_bundle
    rw [if_pos hv]
  exact ⟨hv, C6_output_point_count wNodes wEdgesSingle wCfg
    (bundleOutput wNodes wEdgesSingle wCfg) hv hok⟩

/-- **C7.** If all edges' initial resampled polylines coincide, the
coincident configuration is a fixed point: every contribution pulls a
point toward its own position, so the procedure returns the initial point
positions unchanged, for every valid configuration (hence every iteration
cap). -/
theorem C7_coincident_edges_fixed_point (nodes : List Point)
    (edges : List Edge) (cfg : Config) (hv : validConfig cfg)
    (hcoin : ∀ p q, p ∈ initialPolylines nodes edges cfg.points →
      q ∈ initialPolylines nodes edges cfg.points → p = q) :
    hammer_bundle nodes edges cfg =
      .ok (initialPolylines nodes edges cfg.points) := by
  unfold hammer_bundle
  rw [if_pos hv, runIters_id_of_all_eq hcoin]

/-- Witness for C7: two coincident edges between the same endpoints; their
resampled polylines are the same term, so the coincidence hypothesis holds
by membership reasoning alone. -/
theorem C7_coincident_edges_fixed_point_witness :
    validConfig wCfg ∧
    hammer_bundle wNodes wEdgesCoincident wCfg =
      .ok (initialPolylines wNodes wEdgesCoincident wCfg.points) := by
  have hv : validConfig wCfg := by norm_num [validConfig, wCfg]
  have hcoin : ∀ p q, p ∈ initialPolylines wNodes wEdgesCoincident wCfg.points →
      q ∈ initialPolylines wNodes wEdgesCoincident wCfg.points → p = q := by
    intro p q hp hq
    simp only [initialPolylines, wEdgesCoincident, List.map_cons, List.map_nil,
      List.mem_cons, List.not_mem_nil, or_false] at hp hq
    rcases hp with hp | hp <;> rcases hq with hq | hq <;> rw [hp, hq]
  exact ⟨hv, C7_coincident_edges_fixed_point wNodes wEdgesCoincident wCfg hv hcoin⟩

/-- **C8 counterexample.** Increasing the initial bandwidth from 1 to 100
on the three-parallel-edge input (two close edges at distance 1, one far
edge at distance 100), with every other input and configuration field
fixed and both configurations valid, *strictly decreases* the average
midpoint-distance reduction over the spatially-close pairs: the far
edge gains relative kernel weight and drags both close edges, so their
midpoints end up farther apart than with the small bandwidth. -/
theorem C8_counterexample_bw_decreases_reduction :
    validConfig (cfgWithBW 1) ∧ validConfig (cfgWithBW 100) ∧
    (cfgWithBW 1).initial_bandwidth < (cfgWithBW 100).initial_bandwidth ∧
    avgCloseReduction (initialPolylines exNodes exEdges 3)
        (bundleOutput exNodes exEdges (cfgWithBW 100)) 2 <
      avgCloseReduction (initialPolylines exNodes exEdges 3)
        (bundleOutput exNodes exEdges (cfgWithBW 1)) 2 := by
  have hv1 : validConfig (cfgWithBW 1) := by norm_num [validConfig, cfgWithBW]
  have hv100 : validConfig (cfgWithBW 100) := by norm_num [validConfig, cfgWithBW]
  refine ⟨hv1, hv100, by norm_num [cfgWithBW], ?_⟩
  have hb1 : bundleOutput exNodes exEdges (cfgWithBW 1) =
      runIters (1 / 2) 1 1 exInitial := by
    unfold bundleOutput hammer_bundle
    rw [if_pos hv1]
    dsimp only [cfgWithBW]
    rw [ex_initial_eval]
  have hb100 : bundleOutput exNodes exEdges (cfgWithBW 100) =
      runIters (1 / 2) 1 100 exInitial := by
    unfold bundleOutput hammer_bundle
    rw [if_pos hv100]
    dsimp only [cfgWithBW]
    rw [ex_initial_eval]
  rw [ex_initial_eval, hb1, hb100]
  have hlt : sqMidDist (runIters (1 / 2) 1 1 exInitial) 0 1 <
      sqMidDist (runIters (1 / 2) 1 100 exInitial) 0 1 := by
    rw [ex_sqMid_eval 1, ex_sqMid_eval 100, ex_step_bw1_mid0, ex_step_bw1_mid1,
      ex_step_bw100_mid0, ex_step_bw100_mid1]
    norm_num [sqDist]
  have hmd : midDist (runIters (1 / 2) 1 1 exInitial) 0 1 <
      midDist (runIters (1 / 2) 1 100 exInitial) 0 1 := by
    unfold midDist
    apply Real.sqrt_lt_sqrt
    · exact_mod_cast sqMidDist_nonneg (runIters (1 / 2) 1 1 exInitial) 0 1
    · exact_mod_cast hlt
  unfold avgCloseReduction
  rw [ex_closePairs]
  simp only [List.map_cons, List.map_nil, List.sum_cons, List.sum_nil, add_zero,
    List.length_cons, List.length_nil, Nat.zero_add, Nat.cast_one, div_one]
  exact sub_lt_sub_left hmd _

/-- **C8 (amended).** Monotone grouping strength fails in general (see the
counterexample), but with at most two edges the bundling output — and
hence the average midpoint-distance reduction over any set of close
pairs — does not depend on the initial bandwidth at all: each point has a
single attractor whose normalised kernel weight cancels. -/
theorem C8_amended_two_edges_bw_independent (nodes : List Point)
    (edges : List Edge) (cfg1 cfg2 : Config) (h1 : validConfig cfg1)
    (h2 : validConfig cfg2) (hdecay : cfg2.decay = cfg1.decay)
    (hiter : cfg2.iterations = cfg1.iterations)
    (hpts : cfg2.points = cfg1.points) (hlen : edges.length ≤ 2) :
    hammer_bundle nodes edges cfg2 = hammer_bundle nodes edges cfg1 ∧
    ∀ t : ℚ, avgCloseReduction (initialPolylines nodes edges cfg1.points)
        (bundleOutput nodes edges cfg2) t =
      avgCloseReduction (initialPolylines nodes edges cfg1.points)
        (bundleOutput nodes edges cfg1) t := by
  have hmain : hammer_bundle nodes edges cfg2 = hammer_bundle nodes edges cfg1 := by
    unfold hammer_bundle
    rw [if_pos h1, if_pos h2, hdecay, hiter, hpts]
    congr 1
    exact runIters_le_two_bw h1.2.1 cfg1.iterations cfg2.initial_bandwidth
      cfg1.initial_bandwidth h2.1 h1.1 (initialPolylines nodes edges cfg1.points)
      (by rw [initialPolylines_length]; exact hlen)
  refine ⟨hmain, fun t => ?_⟩
  unfold bundleOutput
  rw [hmain]

/-- Witness for the amended C8: a two-edge input bundled with initial
bandwidths 1 and 3 gives identical results. -/
theorem C8_amended_two_edges_bw_independent_witness :
    hammer_bundle wNodes wEdgesCoincident (cfgWithBW 3) =
      hammer_bundle wNodes wEdgesCoincident (cfgWithBW 1) :=
  (C8_amended_two_edges_bw_independent wNodes wEdgesCoincident
    (cfgWithBW 1) (cfgWithBW 3)
    (by norm_num [validConfig, cfgWithBW]) (by norm_num [validConfig, cfgWithBW])
    rfl rfl rfl (by norm_num [wEdgesCoincident])).1

end DatashaderExamples
